import Mathlib

/-!
Verification of the step-lower-bound solver
(`raphael-solver/src/step_lower_bound_solver/solver.rs`).

The solver file is embedded faithfully.  Components of the repository that
the solver uses but whose sources are not available here (the `Effects`
bitfield, `ReducedState`'s conversions, the `ParetoFrontBuilder`, the action
catalog and `use_action_combo`) are modelled from the specification; their
doc comments start with "Modelled from the spec:".

Machine integers are modelled as `Nat`.  The `u8` step budget is handled
with explicit bounds (`255 = u8::MAX`, saturating increments); the one
unguarded `u32` subtraction of `quality_upper_bound` is additionally
modelled exactly over `Int` (`requiredProgressInt`) to reason about
underflow.
-/

/-- A `(progress, quality)` point of a Pareto frontier.  Field names follow
`utils::ParetoValue` (`first` = progress, `second` = quality). -/
structure ParetoValue where
  first : Nat
  second : Nat
deriving DecidableEq

/-- Modelled from the spec: the combo tag stored in the effects bitfield
(`None`, `SynthesisBegin`, `BasicTouch`, `StandardTouch`). -/
inductive Combo where
  | none
  | synthesisBegin
  | basicTouch
  | standardTouch
deriving DecidableEq

/-- Modelled from the spec: the effects bitfield.  Only the fields the
step-lower-bound solver reads are represented; `allow_quality_actions` is
an encoded predicate of the bitfield whose derivation is not part of the
available sources, so it is modelled as a stored flag that the solver never
mutates (zeroing MuscleMemory keeps it unchanged). -/
structure Effects where
  innovation : Nat
  veneration : Nat
  great_strides : Nat
  muscle_memory : Nat
  manipulation : Nat
  waste_not : Nat
  inner_quiet : Nat
  combo : Combo
  adversarial_guard : Bool
  allow_quality_actions : Bool
deriving DecidableEq

/-- Modelled from the spec: `Effects::set_muscle_memory`. -/
def Effects.set_muscle_memory (e : Effects) (v : Nat) : Effects :=
  { e with muscle_memory := v }

/-- Modelled from the spec: the full simulation state consumed by the
solver (`raphael_sim::SimulationState`). -/
structure SimulationState where
  durability : Nat
  cp : Nat
  progress : Nat
  quality : Nat
  unreliable_quality : Nat
  effects : Effects
deriving DecidableEq

/-- Modelled from the spec: the settings accessors the solver uses
(`SolverSettings::max_progress/max_quality/max_durability`). -/
structure SolverSettings where
  max_progress : Nat
  max_quality : Nat
  max_durability : Nat
deriving DecidableEq

/-- Error type of the solver (`SolverException`); the step-lower-bound
solver only constructs `InternalError`. -/
inductive SolverException where
  | NoSolution
  | Interrupted
  | InternalError (msg : String)
  | AllocError
deriving DecidableEq

instance {ε α : Type} [DecidableEq ε] [DecidableEq α] : DecidableEq (Except ε α) :=
  fun a b =>
    match a, b with
    | Except.ok x, Except.ok y =>
      if h : x = y then isTrue (by rw [h])
      else isFalse (fun hc => by cases hc; exact h rfl)
    | Except.error x, Except.error y =>
      if h : x = y then isTrue (by rw [h])
      else isFalse (fun hc => by cases hc; exact h rfl)
    | Except.ok _, Except.error _ => isFalse (fun hc => Except.noConfusion hc)
    | Except.error _, Except.ok _ => isFalse (fun hc => Except.noConfusion hc)

/-- Message of the unknown-state internal error in `quality_upper_bound`. -/
def unknownStateMsg : String :=
  "StepLbSolver: Unknown state queried."

/-- Modelled from the spec: `ReducedState` — durability, canonicalized
effects, and the step budget (`NonZeroU8`, kept as a `Nat`). -/
structure ReducedState where
  durability : Nat
  effects : Effects
  steps_budget : Nat
deriving DecidableEq

/-- Modelled from the spec: `ReducedState::from_state` clears the
adversarial guard, forces the combo tag to `None`, copies durability and
effects, attaches the budget, and discards CP/progress/quality. -/
def ReducedState.from_state (state : SimulationState) (steps_budget : Nat) : ReducedState :=
  { durability := state.durability
    effects := { state.effects with adversarial_guard := false, combo := Combo.none }
    steps_budget := steps_budget }

/-- Modelled from the spec: `ReducedState::to_state` re-expands a reduced
state to a full state; CP/progress/quality are zero (the reduction erased
them, the frontier re-adds progress/quality as deltas). -/
def ReducedState.to_state (rs : ReducedState) : SimulationState :=
  { durability := rs.durability
    cp := 0
    progress := 0
    quality := 0
    unreliable_quality := 0
    effects := rs.effects }

/-- The budget-independent half of a reduced state (`Template`). -/
structure Template where
  durability : Nat
  effects : Effects
deriving DecidableEq

/-- `Template::instantiate`: build a zeroed full state and reduce it at the
given step budget. -/
def Template.instantiate (t : Template) (step_budget : Nat) : ReducedState :=
  ReducedState.from_state
    { durability := t.durability
      cp := 0
      progress := 0
      quality := 0
      unreliable_quality := 0
      effects := t.effects }
    step_budget

/-- Modelled from the spec: the environment the solver consumes — settings,
the initial effects, the action catalog (`FULL_SEARCH_ACTIONS`, actions as
`Nat` identifiers with a `steps` accessor), the pure `use_action_combo`
application, the inner-quiet quality LUT, the largest single-action
progress increase, and the cancellation flag (held fixed, the flag being
single-shot). -/
structure Env where
  settings : SolverSettings
  initial_effects : Effects
  actions : List Nat
  steps : Nat → Nat
  apply : SimulationState → Nat → Option SimulationState
  iq_quality_lut : Nat → Nat
  largest_progress_increase : Nat
  cancel : Bool

/-- The memo table `SolvedStates`, modelled as an association list (newest
entries first, mirroring `HashMap::extend`'s overwrite semantics). -/
abbrev SolvedStates := List (ReducedState × List ParetoValue)

/-- Lookup in `SolvedStates` (first matching key wins). -/
def lookupSolved (m : SolvedStates) (k : ReducedState) : Option (List ParetoValue) :=
  match m with
  | [] => Option.none
  | (k', f) :: rest => if k' = k then some f else lookupSolved rest k

/-- `HashMap::extend`: new entries shadow old ones. -/
def extendSolved (m : SolvedStates) (new : SolvedStates) : SolvedStates :=
  new ++ m

/-- Clamp a point to `max_progress`/`max_quality` (the builder's saturation
rule). -/
def clampVal (mp mq : Nat) (v : ParetoValue) : ParetoValue :=
  ⟨min v.first mp, min v.second mq⟩

/-- Ordering of Pareto points by progress, used to sort merge inputs. -/
def pvLE (u v : ParetoValue) : Prop := u.first ≤ v.first

instance : DecidableRel pvLE := fun u v =>
  inferInstanceAs (Decidable (u.first ≤ v.first))

instance : IsTotal ParetoValue pvLE :=
  ⟨fun u v => Nat.le_total u.first v.first⟩

instance : IsTrans ParetoValue pvLE :=
  ⟨fun _ _ _ h1 h2 => Nat.le_trans h1 h2⟩

/-- Dominance pruning of a progress-sorted list: sweep from the right,
keeping a point iff no later point weakly dominates it; among equal
progress values the higher quality wins. -/
def sweep : List ParetoValue → List ParetoValue
  | [] => []
  | v :: vs =>
    match sweep vs with
    | [] => [v]
    | w :: ws =>
      if v.second ≤ w.second then w :: ws
      else if v.first = w.first then v :: ws
      else v :: w :: ws

/-- Modelled from the spec: `ParetoFrontBuilder::merge` — clamp every point
of the two frontiers to the targets, then push the dominance-pruned union,
sorted progress-increasing / quality-decreasing. -/
def mergeFronts (s : SolverSettings) (a b : List ParetoValue) : List ParetoValue :=
  sweep (List.insertionSort pvLE ((a ++ b).map (clampVal s.max_progress s.max_quality)))

/-- Shift every point of a frontier by the action's progress/quality deltas
(the builder's `iter_mut` add in `solve_precompute_state`). -/
def shiftFront (dp dq : Nat) (l : List ParetoValue) : List ParetoValue :=
  l.map (fun v => ⟨v.first + dp, v.second + dq⟩)

/-- Child frontier selection of `solve_precompute_state`: the memoized
frontier if present, the synthetic frontier `[(max_progress, 0)]` when the
child is absent and disallows quality actions, and fatal (`none`, the
`unreachable!` panic) otherwise. -/
def childFront (solved : SolvedStates) (mp : Nat) (child : ReducedState) : Option (List ParetoValue) :=
  match lookupSolved solved child with
  | some f => some f
  | Option.none =>
    if child.effects.allow_quality_actions = false then some [⟨mp, 0⟩]
    else Option.none

/-- One action of the `solve_precompute_state` loop, acting on the
accumulated frontier; `none` is the fatal `unreachable!` panic. -/
def solveStep (env : Env) (solved : SolvedStates) (state : ReducedState)
    (acc : List ParetoValue) (a : Nat) : Option (List ParetoValue) :=
  if state.steps_budget < env.steps a then some acc
  else
    let new_step_budget := state.steps_budget - env.steps a
    match env.apply state.to_state a with
    | Option.none => some acc
    | some new_state =>
      let progress := new_state.progress
      let quality := new_state.quality
      if 0 < new_step_budget ∧ 0 < new_state.durability then
        let child := ReducedState.from_state new_state new_step_budget
        match childFront solved env.settings.max_progress child with
        | Option.none => Option.none
        | some f => some (mergeFronts env.settings (shiftFront progress quality f) acc)
      else if progress ≠ 0 then
        some (mergeFronts env.settings [⟨progress, quality⟩] acc)
      else some acc

/-- Fold of `solveStep` over the action list, propagating the fatal case. -/
def solveFold (env : Env) (solved : SolvedStates) (state : ReducedState) :
    List Nat → List ParetoValue → Option (List ParetoValue)
  | [], acc => some acc
  | a :: rest, acc =>
    match solveStep env solved state acc a with
    | Option.none => Option.none
    | some acc' => solveFold env solved state rest acc'

/-- `solve_precompute_state`: start from the do-nothing frontier `[(0,0)]`
and fold every catalog action; the builder's push/shift/merge stack
discipline is embedded as the accumulated top frontier. -/
def solve_precompute_state (env : Env) (solved : SolvedStates) (state : ReducedState) :
    Option (List ParetoValue) :=
  solveFold env solved state env.actions [⟨0, 0⟩]

/-- The seed template of the BFS (`generate_precompute_templates`): maximum
durability, initial effects with the adversarial guard cleared and the
combo tag forced to `None`. -/
def seedTemplate (env : Env) : Template :=
  { durability := env.settings.max_durability
    effects := { env.initial_effects with adversarial_guard := false, combo := Combo.none } }

/-- Children of one BFS step of template enumeration: apply every catalog
action to the template instantiated at budget `u8::MAX`, keep results with
positive durability. -/
def genChildren (env : Env) (t : Template) : List Template :=
  env.actions.filterMap (fun a =>
    match env.apply (t.instantiate 255).to_state a with
    | some ns =>
      let rs := ReducedState.from_state ns 255
      if 0 < rs.durability then some ⟨rs.durability, rs.effects⟩ else Option.none
    | Option.none => Option.none)

/-- BFS queue loop of `generate_precompute_templates` (fuelled; the Rust
loop terminates because the template space is finite). -/
def genLoop (env : Env) : Nat → List Template → List Template → List Template
  | 0, _, seen => seen
  | _ + 1, [], seen => seen
  | fuel + 1, t :: queue, seen =>
    let step := (genChildren env t).foldl
      (fun (p : List Template × List Template) c =>
        if p.2.contains c then p else (p.1 ++ [c], p.2 ++ [c]))
      (queue, seen)
    genLoop env fuel step.1 step.2

/-- `generate_precompute_templates`: BFS from the seed template. -/
def generate_precompute_templates (env : Env) (fuel : Nat) : List Template :=
  genLoop env fuel [seedTemplate env] [seedTemplate env]

/-- Mutable state of `precompute` (the alive templates and the memo map);
the layer budget is threaded separately since it restarts at 1 on every
call. -/
structure PState where
  templates : List Template
  solved : SolvedStates
deriving DecidableEq

/-- Template retention test of `precompute`'s filter: keep the template iff
its frontier's last point (the one with maximum progress) is short of
`max_progress` or short of the state's maximum needed quality. -/
def keepTemplate (env : Env) (solved : SolvedStates) (rs : ReducedState) : Bool :=
  let front := (lookupSolved solved rs).getD []
  let value := front.getLastD ⟨0, 0⟩
  let max_needed_quality :=
    if rs.effects.allow_quality_actions then
      env.settings.max_quality - env.iq_quality_lut rs.effects.inner_quiet
    else 0
  decide (value.first < env.settings.max_progress ∨ value.second < max_needed_quality)

/-- Solve every instantiated state of a layer against the previous layers'
memo map (the parallel map; `none` if any worker panics). -/
def solveAll (env : Env) (solved : SolvedStates) :
    List ReducedState → Option SolvedStates
  | [] => some []
  | s :: rest =>
    match solve_precompute_state env solved s, solveAll env solved rest with
    | some f, some ps => some ((s, f) :: ps)
    | _, _ => Option.none

/-- One layer of `precompute` at a given budget: instantiate and
deduplicate the alive templates, solve them against the previous memo map,
extend the map, then filter the templates. -/
def precomputeLayer (env : Env) (st : PState) (budget : Nat) : Option PState :=
  let states := (st.templates.map (fun t => t.instantiate budget)).dedup
  match solveAll env st.solved states with
  | Option.none => Option.none
  | some pairs =>
    let solved' := extendSolved st.solved pairs
    let templates' := st.templates.filter
      (fun t => keepTemplate env solved' (t.instantiate budget))
    some { templates := templates', solved := solved' }

/-- Iterate a given number of precompute layers, the budget saturating at
`u8::MAX` (`NonZeroU8::saturating_add`). -/
def iterLayers (env : Env) : Nat → PState → Nat → Option PState
  | 0, st, _ => some st
  | k + 1, st, budget =>
    match precomputeLayer env st budget with
    | Option.none => Option.none
    | some st' => iterLayers env k st' (min (budget + 1) 255)

/-- The `precompute` layer loop: stop when the alive-template list is empty
or the cancel flag is set, otherwise run a layer and saturate-increment the
budget.  The loop is fuelled; `none` means the fuel ran out with the guard
still true (the Rust loop would still be running). -/
def precomputeLoop (env : Env) (fuel : Nat) (st : PState) (budget : Nat) : Option PState :=
  if st.templates.isEmpty || env.cancel then some st
  else
    match fuel with
    | 0 => Option.none
    | n + 1 =>
      match precomputeLayer env st budget with
      | Option.none => Option.none
      | some st' => precomputeLoop env n st' (min (budget + 1) 255)

/-- `precompute`: run the layer loop with the budget starting at 1. -/
def precompute (env : Env) (fuel : Nat) (st : PState) : Option PState :=
  precomputeLoop env fuel st 1

/-- Termination of `precompute` on a given solver state: some fuel
suffices for the layer loop to return. -/
def precomputeTerminates (env : Env) (st : PState) : Prop :=
  ∃ fuel, (precomputeLoop env fuel st 1).isSome = true

/-- Binary search of `slice::partition_point` (via `binary_search_by`):
narrow `[left, right)` by probing the midpoint.  The interval shrinks
strictly at every step, so a fuel of the initial interval length makes the
fuelled recursion exact. -/
def partitionPointAux (p : ParetoValue → Bool) (a : List ParetoValue) :
    Nat → Nat → Nat → Nat
  | 0, left, _ => left
  | fuel + 1, left, right =>
    if left < right then
      if p (a.getD ((left + right) / 2) ⟨0, 0⟩) then
        partitionPointAux p a fuel ((left + right) / 2 + 1) right
      else partitionPointAux p a fuel left ((left + right) / 2)
    else left

/-- `slice::partition_point` over the whole slice. -/
def partitionPoint (a : List ParetoValue) (p : ParetoValue → Bool) : Nat :=
  partitionPointAux p a a.length 0 a.length

/-- The muscle-memory adjustment of `quality_upper_bound`: zero the
MuscleMemory counter when it is active. -/
def mmAdjust (state : SimulationState) : SimulationState :=
  if state.effects.muscle_memory ≠ 0 then
    { state with effects := state.effects.set_muscle_memory 0 }
  else state

/-- Required progress computed by `quality_upper_bound`: the unguarded
`u32` subtraction `max_progress - progress` (exact for
`progress ≤ max_progress`, see `requiredProgressInt`), minus the largest
single-action progress increase (saturating) when MuscleMemory is
active. -/
def requiredProgress (env : Env) (state : SimulationState) : Nat :=
  let r := env.settings.max_progress - state.progress
  if state.effects.muscle_memory ≠ 0 then r - env.largest_progress_increase else r

/-- Exact integer value of the unguarded `u32` subtraction
`self.settings.max_progress() - state.progress` on line 211 of the solver;
negative values are the underflow cases. -/
def requiredProgressInt (env : Env) (state : SimulationState) : Int :=
  (env.settings.max_progress : Int) - (state.progress : Int)

/-- `quality_upper_bound`: adjust for MuscleMemory, reduce, look the
frontier up (absent keys are a fatal internal error), then binary-search
the first point meeting the required progress. -/
def quality_upper_bound (env : Env) (solved : SolvedStates) (state : SimulationState)
    (step_budget : Nat) : Except SolverException (Option Nat) :=
  let required := requiredProgress env state
  let reduced := ReducedState.from_state (mmAdjust state) step_budget
  match lookupSolved solved reduced with
  | some front =>
    let index := partitionPoint front (fun v => decide (v.first < required))
    Except.ok ((front.get? index).map (fun v => state.quality + v.second))
  | Option.none => Except.error (SolverException.InternalError unknownStateMsg)

/-- Outcome of `step_lower_bound`; `overflow` is the
`checked_add(1).unwrap()` panic when the `u8` budget would pass 255. -/
inductive StepLbResult where
  | ok (b : Nat)
  | err (e : SolverException)
  | overflow
deriving DecidableEq

/-- The budget-increment loop of `step_lower_bound`: query the quality
upper bound, stop on error or on reaching `max_quality`, otherwise
increment the budget (panicking past `u8::MAX`). -/
def slbLoop (env : Env) (solved : SolvedStates) (state : SimulationState)
    (budget : Nat) : StepLbResult :=
  match quality_upper_bound env solved state budget with
  | Except.error e => StepLbResult.err e
  | Except.ok Option.none =>
    if h : budget < 255 then slbLoop env solved state (budget + 1)
    else StepLbResult.overflow
  | Except.ok (some q) =>
    if q < env.settings.max_quality then
      if h : budget < 255 then slbLoop env solved state (budget + 1)
      else StepLbResult.overflow
    else StepLbResult.ok budget
termination_by 256 - budget

/-- `step_lower_bound`: `u8::MAX` when quality actions are disallowed and
the quality target is unmet, otherwise the budget loop starting at
`max(hint, 1)`. -/
def step_lower_bound (env : Env) (solved : SolvedStates) (state : SimulationState)
    (hint : Nat) : StepLbResult :=
  if state.effects.allow_quality_actions = false ∧ state.quality < env.settings.max_quality then
    StepLbResult.ok 255
  else slbLoop env solved state (max hint 1)

/-- A budget at which the `step_lower_bound` loop keeps going: the quality
upper bound is absent or below the target. -/
def ContinueAt (env : Env) (solved : SolvedStates) (state : SimulationState) (b : Nat) : Prop :=
  quality_upper_bound env solved state b = Except.ok Option.none ∨
  ∃ q, quality_upper_bound env solved state b = Except.ok (some q) ∧
    q < env.settings.max_quality

/-- An applicable action whose child has positive budget and durability,
is absent from the memo map, and still allows quality actions — the
configuration that trips the `unreachable!` of `solve_precompute_state`. -/
def fatalChild (env : Env) (solved : SolvedStates) (state : ReducedState) (a : Nat) : Prop :=
  env.steps a ≤ state.steps_budget ∧
  ∃ ns, env.apply state.to_state a = some ns ∧
    0 < state.steps_budget - env.steps a ∧
    0 < ns.durability ∧
    lookupSolved solved (ReducedState.from_state ns (state.steps_budget - env.steps a)) = Option.none ∧
    (ReducedState.from_state ns (state.steps_budget - env.steps a)).effects.allow_quality_actions = true

/-- Strict progress ordering of Pareto points. -/
def pvLT (u v : ParetoValue) : Prop := u.first < v.first

/-- Strict quality-decreasing ordering of Pareto points. -/
def pvQGT (u v : ParetoValue) : Prop := v.second < u.second

instance : IsTrans ParetoValue pvLT :=
  ⟨fun _ _ _ h1 h2 => Nat.lt_trans h1 h2⟩

instance : IsTrans ParetoValue pvQGT :=
  ⟨fun _ _ _ h1 h2 => Nat.lt_trans h2 h1⟩

instance : DecidableRel pvLT := fun u v =>
  inferInstanceAs (Decidable (u.first < v.first))

instance : DecidableRel pvQGT := fun u v =>
  inferInstanceAs (Decidable (v.second < u.second))

/-- Well-formed frontier: strictly progress-increasing, strictly
quality-decreasing, every point within the targets. -/
def WFFront (mp mq : Nat) (l : List ParetoValue) : Prop :=
  List.Chain' pvLT l ∧ List.Chain' pvQGT l ∧
  ∀ v ∈ l, v.first ≤ mp ∧ v.second ≤ mq

/-- Every frontier stored in a memo map is well-formed. -/
def SolvedWF (s : SolverSettings) (m : SolvedStates) : Prop :=
  ∀ rs f, lookupSolved m rs = some f → WFFront s.max_progress s.max_quality f

/-! ## Concrete instances used by witnesses and the counterexample -/

/-- Effects value with no active counters, quality actions allowed. -/
def effects0 : Effects :=
  ⟨0, 0, 0, 0, 0, 0, 0, Combo.none, false, true⟩

/-- Effects value with one MuscleMemory charge. -/
def effectsMM : Effects :=
  { effects0 with muscle_memory := 1 }

/-- Environment with an empty catalog, `max_progress = 10`,
`max_quality = 100`, largest progress increase 3. -/
def envA : Env :=
  { settings := ⟨10, 100, 40⟩
    initial_effects := effects0
    actions := []
    steps := fun _ => 1
    apply := fun _ _ => Option.none
    iq_quality_lut := fun _ => 0
    largest_progress_increase := 3
    cancel := false }

/-- State with MuscleMemory active, progress 2, quality 5. -/
def stateA : SimulationState := ⟨30, 0, 2, 5, 0, effectsMM⟩

/-- A strictly-sorted three-point frontier. -/
def frontA : List ParetoValue := [⟨3, 9⟩, ⟨5, 7⟩, ⟨8, 2⟩]

/-- Memo map holding `frontA` at the reduction of `stateA` (MuscleMemory
zeroed) with budget 4. -/
def solvedA : SolvedStates := [(⟨30, effects0, 4⟩, frontA)]

/-- Environment with `max_progress = 0`, `max_quality = 5`. -/
def envB : Env := { envA with settings := ⟨0, 5, 40⟩, largest_progress_increase := 0 }

/-- Zeroed state with quality actions allowed. -/
def state0 : SimulationState := ⟨30, 0, 0, 0, 0, effects0⟩

/-- Memo map whose budget-1 frontier reaches quality 10 at progress 0. -/
def solvedB : SolvedStates := [(⟨30, effects0, 1⟩, [⟨0, 10⟩])]

/-- Environment with `max_progress = 5`, `max_quality = 100`. -/
def envC : Env := { envA with settings := ⟨5, 100, 40⟩ }

/-- Memo map covering budgets 250–255 with frontiers that never reach the
required progress. -/
def solvedC : SolvedStates :=
  [(⟨30, effects0, 250⟩, [⟨0, 0⟩]), (⟨30, effects0, 251⟩, [⟨0, 0⟩]),
   (⟨30, effects0, 252⟩, [⟨0, 0⟩]), (⟨30, effects0, 253⟩, [⟨0, 0⟩]),
   (⟨30, effects0, 254⟩, [⟨0, 0⟩]), (⟨30, effects0, 255⟩, [⟨0, 0⟩])]

/-- Environment with a single action leading to a child state (positive
budget and durability) that allows quality actions. -/
def envD : Env :=
  { envA with
    actions := [0]
    apply := fun _ _ => some ⟨5, 0, 3, 0, 0, effects0⟩ }

/-- Reduced state with step budget 2. -/
def stateD : ReducedState := ⟨30, effects0, 2⟩

/-- Environment with an empty catalog and positive targets: its precompute
never exhausts its templates. -/
def envE : Env := { envA with settings := ⟨100, 100, 40⟩ }

/-- Initial precompute state of `envE`. -/
def stE : PState := ⟨[seedTemplate envE], []⟩

/-- Precompute state of `envE` after one layer. -/
def stE1 : PState := ⟨[seedTemplate envE], [(⟨40, effects0, 1⟩, [⟨0, 0⟩])]⟩

/-- Environment with zero targets: every template is dropped after the
first layer. -/
def envF : Env := { envA with settings := ⟨0, 0, 40⟩ }

/-- Initial precompute state of `envF`. -/
def stF : PState := ⟨[seedTemplate envF], []⟩

/-- Final precompute state of `envF`: templates exhausted. -/
def stF1 : PState := ⟨[], [(⟨40, effects0, 1⟩, [⟨0, 0⟩])]⟩

/-! ## Helper lemmas: binary search (`partition_point`) semantics -/

theorem takeWhileLengthEq (p : ParetoValue → Bool) :
    ∀ (l : List ParetoValue) (k : Nat), k ≤ l.length →
    (∀ i, i < k → p (l.getD i ⟨0, 0⟩) = true) →
    (k < l.length → p (l.getD k ⟨0, 0⟩) = false) →
    (l.takeWhile p).length = k := by
  intro l
  induction l with
  | nil =>
    intro k hk _ _
    simp at hk
    simp [hk]
  | cons x xs ih =>
    intro k hk h1 h2
    cases k with
    | zero =>
      have hx : p x = false := by
        have := h2 (by simp)
        simpa using this
      simp [List.takeWhile_cons, hx]
    | succ j =>
      have hx : p x = true := by
        have := h1 0 (Nat.succ_pos j)
        simpa using this
      have hlen : j ≤ xs.length := by simpa using hk
      have h1' : ∀ i, i < j → p (xs.getD i ⟨0, 0⟩) = true := by
        intro i hi
        have := h1 (i + 1) (by omega)
        simpa using this
      have h2' : j < xs.length → p (xs.getD j ⟨0, 0⟩) = false := by
        intro hj
        have := h2 (by simpa using Nat.succ_lt_succ hj)
        simpa using this
      simp [List.takeWhile_cons, hx, ih j hlen h1' h2']

theorem partitionPointAuxEq (p : ParetoValue → Bool) (l : List ParetoValue)
    (hpart : ∀ i j, i ≤ j → j < l.length →
      p (l.getD j ⟨0, 0⟩) = true → p (l.getD i ⟨0, 0⟩) = true) :
    ∀ (fuel left right : Nat), right - left ≤ fuel → left ≤ right → right ≤ l.length →
    (∀ i, i < left → p (l.getD i ⟨0, 0⟩) = true) →
    (∀ j, right ≤ j → j < l.length → p (l.getD j ⟨0, 0⟩) = false) →
    partitionPointAux p l fuel left right = (l.takeWhile p).length := by
  intro fuel
  induction fuel with
  | zero =>
    intro left right hn hlr hr h1 h2
    have heq : left = right := by omega
    show left = _
    refine (takeWhileLengthEq p l left (by omega) h1 ?_).symm
    intro hlt
    exact h2 left (by omega) hlt
  | succ n ih =>
    intro left right hn hlr hr h1 h2
    by_cases h : left < right
    · have hmid1 : left ≤ (left + right) / 2 := by omega
      have hmid2 : (left + right) / 2 < right := by omega
      show (if left < right then _ else left) = _
      rw [if_pos h]
      by_cases hp : p (l.getD ((left + right) / 2) ⟨0, 0⟩) = true
      · rw [if_pos hp]
        refine ih ((left + right) / 2 + 1) right (by omega) (by omega) hr ?_ h2
        intro i hi
        exact hpart i ((left + right) / 2) (by omega) (by omega) hp
      · rw [if_neg hp]
        refine ih left ((left + right) / 2) (by omega) (by omega) (by omega) h1 ?_
        intro j hj1 hj2
        by_cases hpj : p (l.getD j ⟨0, 0⟩) = true
        · exact absurd (hpart ((left + right) / 2) j hj1 hj2 hpj) hp
        · simpa using hpj
    · show (if left < right then _ else left) = _
      rw [if_neg h]
      have heq : left = right := by omega
      refine (takeWhileLengthEq p l left (by omega) h1 ?_).symm
      intro hlt
      exact h2 left (by omega) hlt

theorem partitionPointEq (p : ParetoValue → Bool) (l : List ParetoValue)
    (hpart : ∀ i j, i ≤ j → j < l.length →
      p (l.getD j ⟨0, 0⟩) = true → p (l.getD i ⟨0, 0⟩) = true) :
    partitionPoint l p = (l.takeWhile p).length :=
  partitionPointAuxEq p l hpart l.length 0 l.length (by omega) (by omega) (le_refl _)
    (by intro i hi; omega) (by intro j hj1 hj2; omega)

theorem getTakeWhileLen (p : ParetoValue → Bool) :
    ∀ l : List ParetoValue,
    l.get? (l.takeWhile p).length = l.find? (fun v => !(p v)) := by
  intro l
  induction l with
  | nil => simp
  | cons x xs ih =>
    by_cases hx : p x = true
    · have htw : (x :: xs).takeWhile p = x :: xs.takeWhile p := by
        simp [List.takeWhile_cons, hx]
      rw [htw]
      have hget : (x :: xs).get? ((xs.takeWhile p).length + 1)
          = xs.get? (xs.takeWhile p).length := rfl
      show (x :: xs).get? ((xs.takeWhile p).length + 1) = _
      rw [hget, ih]
      simp [List.find?_cons, hx]
    · have hx' : p x = false := by simpa using hx
      have htw : (x :: xs).takeWhile p = [] := by
        simp [List.takeWhile_cons, hx']
      rw [htw]
      simp [List.find?_cons, hx']

/-! ## Helper lemmas: sorted frontiers -/

theorem getDInRange (l : List ParetoValue) (i : Nat) (h : i < l.length) :
    l.getD i ⟨0, 0⟩ = l.get ⟨i, h⟩ := by
  rw [List.getD_eq_get?, List.get?_eq_get h]
  rfl

theorem chainLtLe (front : List ParetoValue) (hs : List.Chain' pvLT front) :
    ∀ i j, i ≤ j → j < front.length →
    (front.getD i ⟨0, 0⟩).first ≤ (front.getD j ⟨0, 0⟩).first := by
  intro i j hij hj
  have hp : List.Pairwise pvLT front := List.chain'_iff_pairwise.mp hs
  rcases Nat.lt_or_ge i j with h | h
  · have hlt := (List.pairwise_iff_get.mp hp) ⟨i, by omega⟩ ⟨j, hj⟩ h
    rw [getDInRange front i (by omega), getDInRange front j hj]
    exact Nat.le_of_lt hlt
  · have heq : i = j := by omega
    subst heq
    exact Nat.le_refl _

theorem chainPartitioned (front : List ParetoValue) (hs : List.Chain' pvLT front)
    (required : Nat) :
    ∀ i j, i ≤ j → j < front.length →
    (fun v => decide (v.first < required)) (front.getD j ⟨0, 0⟩) = true →
    (fun v => decide (v.first < required)) (front.getD i ⟨0, 0⟩) = true := by
  intro i j hij hj hpj
  have hle := chainLtLe front hs i j hij hj
  simp only [decide_eq_true_eq] at hpj ⊢
  omega

theorem findFirstGeMin (required : Nat) :
    ∀ l : List ParetoValue, List.Pairwise pvLT l →
    ∀ v, l.find? (fun w => decide (required ≤ w.first)) = some v →
    required ≤ v.first ∧ ∀ w ∈ l, required ≤ w.first → v.first ≤ w.first := by
  intro l
  induction l with
  | nil => intro _ v h; simp at h
  | cons x xs ih =>
    intro hp v h
    by_cases hx : required ≤ x.first
    · rw [List.find?_cons_of_pos _ (by simpa using hx)] at h
      cases h
      refine ⟨hx, ?_⟩
      intro w hw _
      rcases List.mem_cons.mp hw with rfl | hw'
      · exact Nat.le_refl _
      · exact Nat.le_of_lt ((List.pairwise_cons.mp hp).1 w hw')
    · rw [List.find?_cons_of_neg _ (by simpa using hx)] at h
      have hrec := ih (List.pairwise_cons.mp hp).2 v h
      refine ⟨hrec.1, ?_⟩
      intro w hw hwge
      rcases List.mem_cons.mp hw with rfl | hw'
      · exact absurd hwge hx
      · exact hrec.2 w hw' hwge

theorem qubFrontIndex (required : Nat) (front : List ParetoValue)
    (hs : List.Chain' pvLT front) :
    front.get? (partitionPoint front (fun v => decide (v.first < required)))
      = front.find? (fun v => decide (required ≤ v.first)) := by
  rw [partitionPointEq _ _ (chainPartitioned front hs required)]
  rw [getTakeWhileLen]
  congr 1
  funext v
  rw [← decide_not]
  exact decide_eq_decide.mpr (by omega)

/-! ## Claim theorems: bound queries -/

/-- C10: the unguarded `u32` subtraction `max_progress - state.progress`
of `quality_upper_bound` does not underflow exactly when
`state.progress ≤ max_progress`; inputs with larger progress underflow it,
and on the non-underflowing inputs the `Nat` model of the subtraction is
exact. -/
theorem requiredProgressNoUnderflow (env : Env) (state : SimulationState) :
    (0 ≤ requiredProgressInt env state ↔ state.progress ≤ env.settings.max_progress)
    ∧ (requiredProgressInt env state < 0 ↔ env.settings.max_progress < state.progress)
    ∧ (state.progress ≤ env.settings.max_progress →
        requiredProgressInt env state
          = ((env.settings.max_progress - state.progress : Nat) : Int)) := by
  unfold requiredProgressInt
  refine ⟨by omega, by omega, ?_⟩
  intro h
  omega

/-- Witness for C10 at `envA`/`stateA` (progress 2 against target 10). -/
theorem requiredProgressNoUnderflowWitness :
    requiredProgressInt envA stateA
      = ((envA.settings.max_progress - stateA.progress : Nat) : Int) :=
  (requiredProgressNoUnderflow envA stateA).2.2 (by decide)

/-- C6: `quality_upper_bound` returns the `InternalError` "unknown state
queried" exactly when the reduction of the muscle-memory-adjusted state at
the queried budget is not a key of the memo map; present keys always give
an `Ok` answer. -/
theorem qubErrorIffUnknown (env : Env) (solved : SolvedStates) (state : SimulationState)
    (step_budget : Nat) :
    ((∃ e, quality_upper_bound env solved state step_budget = Except.error e)
      ↔ lookupSolved solved (ReducedState.from_state (mmAdjust state) step_budget)
          = Option.none)
    ∧ (lookupSolved solved (ReducedState.from_state (mmAdjust state) step_budget)
          = Option.none →
        quality_upper_bound env solved state step_budget
          = Except.error (SolverException.InternalError unknownStateMsg)) := by
  refine ⟨⟨?_, ?_⟩, ?_⟩
  · intro ⟨e, he⟩
    simp only [quality_upper_bound] at he
    cases hl : lookupSolved solved (ReducedState.from_state (mmAdjust state) step_budget) with
    | none => rfl
    | some front =>
      rw [hl] at he
      simp at he
  · intro h
    refine ⟨SolverException.InternalError unknownStateMsg, ?_⟩
    simp only [quality_upper_bound]
    rw [h]
  · intro h
    simp only [quality_upper_bound]
    rw [h]

/-- Witness for C6: a query against an empty memo map faults. -/
theorem qubErrorIffUnknownWitness :
    quality_upper_bound envA [] stateA 4
      = Except.error (SolverException.InternalError unknownStateMsg) :=
  (qubErrorIffUnknown envA [] stateA 4).2 rfl

/-- C2: for a state within the progress target whose adjusted reduction is
a key of the memo map holding a strictly progress-sorted frontier,
`quality_upper_bound` computes `required_progress = max_progress -
progress`, with the MuscleMemory adjustment (saturating subtraction of the
largest single-action progress increase, counter zeroed before reduction),
and returns `Ok (some (state.quality + q))` for the frontier point of
smallest progress ≥ `required_progress`, or `Ok none` when every point
falls short. -/
theorem qualityUpperBoundSpec (env : Env) (solved : SolvedStates)
    (state : SimulationState) (step_budget : Nat) (front : List ParetoValue)
    (hprog : state.progress ≤ env.settings.max_progress)
    (hfound : lookupSolved solved (ReducedState.from_state
      (if state.effects.muscle_memory ≠ 0 then
        { state with effects := state.effects.set_muscle_memory 0 }
      else state) step_budget) = some front)
    (hsorted : List.Chain' pvLT front) :
    quality_upper_bound env solved state step_budget
      = Except.ok ((front.find? (fun v =>
          decide (requiredProgress env state ≤ v.first))).map
          (fun v => state.quality + v.second))
    ∧ (∀ v, front.find? (fun v => decide (requiredProgress env state ≤ v.first)) = some v →
        requiredProgress env state ≤ v.first ∧
        ∀ w ∈ front, requiredProgress env state ≤ w.first → v.first ≤ w.first)
    ∧ (front.find? (fun v => decide (requiredProgress env state ≤ v.first)) = Option.none →
        ∀ w ∈ front, w.first < requiredProgress env state) := by
  have hfound' : lookupSolved solved
      (ReducedState.from_state (mmAdjust state) step_budget) = some front := hfound
  refine ⟨?_, ?_, ?_⟩
  · simp only [quality_upper_bound]
    rw [hfound']
    show Except.ok ((front.get? (partitionPoint front
        (fun v => decide (v.first < requiredProgress env state)))).map
        (fun v => state.quality + v.second)) = _
    rw [qubFrontIndex (requiredProgress env state) front hsorted]
  · intro v hv
    exact findFirstGeMin (requiredProgress env state) front
      (List.chain'_iff_pairwise.mp hsorted) v hv
  · intro hnone w hw
    have := List.find?_eq_none.mp hnone w hw
    simp only [decide_eq_true_eq] at this
    omega

/-- Witness for C2: with MuscleMemory active, progress 2, target 10 and
largest increase 3, the required progress is 5 and the frontier point
`(5, 7)` is selected, giving quality bound `5 + 7 = 12`. -/
theorem qualityUpperBoundSpecWitness :
    quality_upper_bound envA solvedA stateA 4 = Except.ok (some 12) := by
  have h := qualityUpperBoundSpec envA solvedA stateA 4 frontA
    (by decide) (by decide)
    (by simp [frontA, pvLT, List.chain'_cons, List.chain'_singleton])
  rw [h.1]
  rfl

/-! ## Helper lemmas: the `step_lower_bound` budget loop -/

theorem slbLoopErr (env : Env) (solved : SolvedStates) (state : SimulationState)
    (budget : Nat) (e : SolverException)
    (h : quality_upper_bound env solved state budget = Except.error e) :
    slbLoop env solved state budget = StepLbResult.err e := by
  rw [slbLoop.eq_def, h]

theorem slbLoopDone (env : Env) (solved : SolvedStates) (state : SimulationState)
    (budget q : Nat)
    (h : quality_upper_bound env solved state budget = Except.ok (some q))
    (hge : env.settings.max_quality ≤ q) :
    slbLoop env solved state budget = StepLbResult.ok budget := by
  rw [slbLoop.eq_def, h]
  show (if q < env.settings.max_quality then _ else StepLbResult.ok budget) = _
  rw [if_neg (by omega)]

theorem slbLoopStep (env : Env) (solved : SolvedStates) (state : SimulationState)
    (budget : Nat) (hc : ContinueAt env solved state budget) (hb : budget < 255) :
    slbLoop env solved state budget = slbLoop env solved state (budget + 1) := by
  rcases hc with h | ⟨q, hq, hlt⟩
  · rw [slbLoop.eq_def, h]
    show (if _ : budget < 255 then _ else _) = _
    rw [dif_pos hb]
  · rw [slbLoop.eq_def, hq]
    show (if q < env.settings.max_quality then _ else _) = _
    rw [if_pos hlt]
    show (if _ : budget < 255 then _ else _) = _
    rw [dif_pos hb]

theorem slbLoopOverflowStep (env : Env) (solved : SolvedStates) (state : SimulationState)
    (hc : ContinueAt env solved state 255) :
    slbLoop env solved state 255 = StepLbResult.overflow := by
  rcases hc with h | ⟨q, hq, hlt⟩
  · rw [slbLoop.eq_def, h]
    show (if _ : (255 : Nat) < 255 then _ else _) = _
    rw [dif_neg (by omega)]
  · rw [slbLoop.eq_def, hq]
    show (if q < env.settings.max_quality then _ else _) = _
    rw [if_pos hlt]
    show (if _ : (255 : Nat) < 255 then _ else _) = _
    rw [dif_neg (by omega)]

theorem slbLoopSpec (env : Env) (solved : SolvedStates) (state : SimulationState) :
    ∀ n b0 : Nat, b0 + n ≤ 255 →
    (∀ b', b0 ≤ b' → b' < b0 + n → ContinueAt env solved state b') →
    (∀ q, quality_upper_bound env solved state (b0 + n) = Except.ok (some q) →
      env.settings.max_quality ≤ q →
      slbLoop env solved state b0 = StepLbResult.ok (b0 + n))
    ∧ (∀ e, quality_upper_bound env solved state (b0 + n) = Except.error e →
      slbLoop env solved state b0 = StepLbResult.err e) := by
  intro n
  induction n with
  | zero =>
    intro b0 hle hcont
    exact ⟨fun q hq hge => slbLoopDone env solved state b0 q hq hge,
           fun e he => slbLoopErr env solved state b0 e he⟩
  | succ n ih =>
    intro b0 hle hcont
    have hc0 : ContinueAt env solved state b0 := hcont b0 (Nat.le_refl _) (by omega)
    have hb0 : b0 < 255 := by omega
    have hstep := slbLoopStep env solved state b0 hc0 hb0
    have ih' := ih (b0 + 1) (by omega) (fun b' h1 h2 => hcont b' (by omega) (by omega))
    have harith : b0 + 1 + n = b0 + (n + 1) := by omega
    rw [harith] at ih'
    exact ⟨fun q hq hge => by rw [hstep]; exact ih'.1 q hq hge,
           fun e he => by rw [hstep]; exact ih'.2 e he⟩

theorem slbGuardFalse (env : Env) (state : SimulationState)
    (hq : state.effects.allow_quality_actions = true ∨
      env.settings.max_quality ≤ state.quality) :
    ¬ (state.effects.allow_quality_actions = false ∧
      state.quality < env.settings.max_quality) := by
  rcases hq with h | h
  · intro ⟨h1, _⟩
    rw [h] at h1
    exact Bool.noConfusion h1
  · intro ⟨_, h2⟩
    omega

/-! ## Claim theorems: `step_lower_bound` -/

/-- C1: when quality actions are disallowed and the quality target is
unmet, `step_lower_bound` returns `u8::MAX = 255`; otherwise, for the
smallest budget `b ≥ max(hint, 1)` at which `quality_upper_bound` stops
the loop (all smaller budgets continuing), the function returns `Ok b`
when the bound reaches `max_quality` there, and propagates the error when
the query faults there. -/
theorem stepLowerBoundSpec (env : Env) (solved : SolvedStates)
    (state : SimulationState) (hint : Nat) :
    (state.effects.allow_quality_actions = false →
      state.quality < env.settings.max_quality →
      step_lower_bound env solved state hint = StepLbResult.ok 255)
    ∧ ((state.effects.allow_quality_actions = true ∨
        env.settings.max_quality ≤ state.quality) →
      ∀ b, max hint 1 ≤ b → b ≤ 255 →
      (∀ b', max hint 1 ≤ b' → b' < b → ContinueAt env solved state b') →
      (∀ q, quality_upper_bound env solved state b = Except.ok (some q) →
        env.settings.max_quality ≤ q →
        step_lower_bound env solved state hint = StepLbResult.ok b)
      ∧ (∀ e, quality_upper_bound env solved state b = Except.error e →
        step_lower_bound env solved state hint = StepLbResult.err e)) := by
  constructor
  · intro h1 h2
    unfold step_lower_bound
    rw [if_pos ⟨h1, h2⟩]
  · intro hq b hb1 hb2 hcont
    have hrw : step_lower_bound env solved state hint
        = slbLoop env solved state (max hint 1) := by
      unfold step_lower_bound
      rw [if_neg (slbGuardFalse env state hq)]
    have hspec := slbLoopSpec env solved state (b - max hint 1) (max hint 1) (by omega)
      (fun b' h1 h2 => hcont b' h1 (by omega))
    have harith : max hint 1 + (b - max hint 1) = b := by omega
    rw [harith] at hspec
    exact ⟨fun q hq' hge => by rw [hrw]; exact hspec.1 q hq' hge,
           fun e he => by rw [hrw]; exact hspec.2 e he⟩

/-- Witness for C1: with target quality 5 and a budget-1 frontier giving
bound 10, `step_lower_bound` with hint 0 returns budget 1. -/
theorem stepLowerBoundSpecWitness :
    step_lower_bound envB solvedB state0 0 = StepLbResult.ok 1 := by
  have h := (stepLowerBoundSpec envB solvedB state0 0).2 (Or.inl rfl) 1
    (by decide) (by decide) (fun b' h1 h2 => by omega)
  exact h.1 10 (by decide) (by decide)

theorem slbLoopOverflowAll (env : Env) (solved : SolvedStates) (state : SimulationState) :
    ∀ n b0 : Nat, b0 + n = 255 →
    (∀ b, b0 ≤ b → b ≤ 255 → ContinueAt env solved state b) →
    slbLoop env solved state b0 = StepLbResult.overflow := by
  intro n
  induction n with
  | zero =>
    intro b0 h255 hcont
    have hb : b0 = 255 := by omega
    subst hb
    exact slbLoopOverflowStep env solved state (hcont 255 (Nat.le_refl _) (Nat.le_refl _))
  | succ n ih =>
    intro b0 h255 hcont
    have hb0 : b0 < 255 := by omega
    rw [slbLoopStep env solved state b0 (hcont b0 (Nat.le_refl _) (by omega)) hb0]
    exact ih (b0 + 1) (by omega) (fun b h1 h2 => hcont b (by omega) h2)

/-- C9: when quality actions are allowed (or the quality target is already
met) and every budget from `max(hint, 1)` through 255 neither faults nor
reaches `max_quality`, the loop's `checked_add(1).unwrap()` panics on the
`u8` overflow past 255 instead of returning `u8::MAX` or an error. -/
theorem stepLowerBoundOverflow (env : Env) (solved : SolvedStates)
    (state : SimulationState) (hint : Nat)
    (hq : state.effects.allow_quality_actions = true ∨
      env.settings.max_quality ≤ state.quality)
    (hhint : hint ≤ 255)
    (hcont : ∀ b, max hint 1 ≤ b → b ≤ 255 → ContinueAt env solved state b) :
    step_lower_bound env solved state hint = StepLbResult.overflow := by
  unfold step_lower_bound
  rw [if_neg (slbGuardFalse env state hq)]
  exact slbLoopOverflowAll env solved state (255 - max hint 1) (max hint 1)
    (by omega) hcont

/-- Witness for C9: budgets 250–255 all yield `Ok none` (the stored
frontiers never reach the required progress), so a query with hint 250
panics on the budget overflow. -/
theorem stepLowerBoundOverflowWitness :
    step_lower_bound envC solvedC state0 250 = StepLbResult.overflow := by
  refine stepLowerBoundOverflow envC solvedC state0 250 (Or.inl rfl) (by omega) ?_
  intro b h1 h2
  have hb1 : 250 ≤ b := by omega
  interval_cases b <;> exact Or.inl (by decide)

/-! ## Helper lemmas: frontier well-formedness through merges -/

theorem sweepConsNil (v : ParetoValue) (vs : List ParetoValue)
    (hsw : sweep vs = []) : sweep (v :: vs) = [v] := by
  simp only [sweep]
  rw [hsw]

theorem sweepConsEq (v w : ParetoValue) (vs ws : List ParetoValue)
    (hsw : sweep vs = w :: ws) :
    sweep (v :: vs) = if v.second ≤ w.second then w :: ws
      else if v.first = w.first then v :: ws else v :: w :: ws := by
  simp only [sweep]
  rw [hsw]

theorem sweepSubset : ∀ l : List ParetoValue, ∀ x ∈ sweep l, x ∈ l := by
  intro l
  induction l with
  | nil => simp [sweep]
  | cons v vs ih =>
    intro x hx
    cases hsw : sweep vs with
    | nil =>
      rw [sweepConsNil v vs hsw] at hx
      have hxv : x = v := List.mem_singleton.mp hx
      rw [hxv]
      exact List.mem_cons_self v vs
    | cons w ws =>
      rw [sweepConsEq v w vs ws hsw] at hx
      by_cases h1 : v.second ≤ w.second
      · rw [if_pos h1] at hx
        exact List.mem_cons_of_mem v (ih x (hsw ▸ hx))
      · by_cases h2 : v.first = w.first
        · rw [if_neg h1, if_pos h2] at hx
          rcases List.mem_cons.mp hx with hxv | hx'
          · rw [hxv]
            exact List.mem_cons_self v vs
          · exact List.mem_cons_of_mem v (ih x (hsw ▸ List.mem_cons_of_mem w hx'))
        · rw [if_neg h1, if_neg h2] at hx
          rcases List.mem_cons.mp hx with hxv | hx'
          · rw [hxv]
            exact List.mem_cons_self v vs
          · exact List.mem_cons_of_mem v (ih x (hsw ▸ hx'))

theorem sweepChains : ∀ l : List ParetoValue, List.Pairwise pvLE l →
    List.Chain' pvLT (sweep l) ∧ List.Chain' pvQGT (sweep l) := by
  intro l
  induction l with
  | nil => intro _; simp [sweep]
  | cons v vs ih =>
    intro hp
    obtain ⟨hv, hvs⟩ := List.pairwise_cons.mp hp
    have ihc := ih hvs
    cases hsw : sweep vs with
    | nil =>
      rw [sweepConsNil v vs hsw]
      exact ⟨List.chain'_singleton v, List.chain'_singleton v⟩
    | cons w ws =>
      rw [hsw] at ihc
      have hw : w ∈ vs := sweepSubset vs w (hsw ▸ List.mem_cons_self w ws)
      have hvw : pvLE v w := hv w hw
      rw [sweepConsEq v w vs ws hsw]
      by_cases h1 : v.second ≤ w.second
      · rw [if_pos h1]
        exact ihc
      · by_cases h2 : v.first = w.first
        · rw [if_neg h1, if_pos h2]
          obtain ⟨hhead1, htail1⟩ := List.chain'_cons'.mp ihc.1
          obtain ⟨hhead2, htail2⟩ := List.chain'_cons'.mp ihc.2
          constructor
          · refine List.chain'_cons'.mpr ⟨?_, htail1⟩
            intro y hy
            have hwy := hhead1 y hy
            show pvLT v y
            unfold pvLT at hwy ⊢
            omega
          · refine List.chain'_cons'.mpr ⟨?_, htail2⟩
            intro y hy
            have hwy := hhead2 y hy
            show pvQGT v y
            unfold pvQGT at hwy ⊢
            omega
        · rw [if_neg h1, if_neg h2]
          constructor
          · refine List.chain'_cons.mpr ⟨?_, ihc.1⟩
            unfold pvLE at hvw
            show pvLT v w
            unfold pvLT
            omega
          · refine List.chain'_cons.mpr ⟨?_, ihc.2⟩
            show pvQGT v w
            unfold pvQGT
            omega

theorem mergeFrontsWF (s : SolverSettings) (a b : List ParetoValue) :
    WFFront s.max_progress s.max_quality (mergeFronts s a b) := by
  unfold mergeFronts
  have hsorted : List.Pairwise pvLE
      (List.insertionSort pvLE ((a ++ b).map (clampVal s.max_progress s.max_quality))) :=
    List.sorted_insertionSort pvLE _
  have hchains := sweepChains _ hsorted
  refine ⟨hchains.1, hchains.2, ?_⟩
  intro v hv
  have hvL := sweepSubset _ v hv
  have hvm : v ∈ (a ++ b).map (clampVal s.max_progress s.max_quality) :=
    (List.perm_insertionSort pvLE _).mem_iff.mp hvL
  obtain ⟨u, _, rfl⟩ := List.mem_map.mp hvm
  exact ⟨Nat.min_le_right _ _, Nat.min_le_right _ _⟩

theorem wfSingleton00 (mp mq : Nat) : WFFront mp mq [⟨0, 0⟩] := by
  refine ⟨List.chain'_singleton _, List.chain'_singleton _, ?_⟩
  intro v hv
  rcases List.mem_singleton.mp hv with rfl
  exact ⟨Nat.zero_le _, Nat.zero_le _⟩

theorem solveStepWF (env : Env) (solved : SolvedStates) (state : ReducedState)
    (acc : List ParetoValue) (a : Nat) (acc' : List ParetoValue)
    (hacc : WFFront env.settings.max_progress env.settings.max_quality acc)
    (h : solveStep env solved state acc a = some acc') :
    WFFront env.settings.max_progress env.settings.max_quality acc' := by
  simp only [solveStep] at h
  split at h
  · cases h; exact hacc
  · split at h
    · cases h; exact hacc
    · split at h
      · split at h
        · exact Option.noConfusion h
        · cases h; exact mergeFrontsWF env.settings _ _
      · split at h
        · cases h; exact mergeFrontsWF env.settings _ _
        · cases h; exact hacc

theorem solveFoldWF (env : Env) (solved : SolvedStates) (state : ReducedState) :
    ∀ (l : List Nat) (acc r : List ParetoValue),
    WFFront env.settings.max_progress env.settings.max_quality acc →
    solveFold env solved state l acc = some r →
    WFFront env.settings.max_progress env.settings.max_quality r := by
  intro l
  induction l with
  | nil =>
    intro acc r hacc h
    cases h
    exact hacc
  | cons a rest ih =>
    intro acc r hacc h
    simp only [solveFold] at h
    cases hstep : solveStep env solved state acc a with
    | none =>
      rw [hstep] at h
      exact Option.noConfusion h
    | some acc' =>
      rw [hstep] at h
      exact ih acc' r (solveStepWF env solved state acc a acc' hacc hstep) h

theorem solveWF (env : Env) (solved : SolvedStates) (state : ReducedState)
    (f : List ParetoValue) (h : solve_precompute_state env solved state = some f) :
    WFFront env.settings.max_progress env.settings.max_quality f :=
  solveFoldWF env solved state env.actions [⟨0, 0⟩] f (wfSingleton00 _ _) h

/-! ## Helper lemmas: the memo map and one precompute layer -/

theorem lookupAppendCases (m1 m2 : SolvedStates) (k : ReducedState)
    (f : List ParetoValue) (h : lookupSolved (m1 ++ m2) k = some f) :
    lookupSolved m1 k = some f ∨ lookupSolved m2 k = some f := by
  induction m1 with
  | nil => exact Or.inr h
  | cons p rest ih =>
    obtain ⟨k', f'⟩ := p
    simp only [List.cons_append, lookupSolved] at h
    simp only [lookupSolved]
    by_cases hk : k' = k
    · rw [if_pos hk] at h ⊢
      exact Or.inl h
    · rw [if_neg hk] at h ⊢
      exact ih h

theorem lookupAppendLeft (m1 m2 : SolvedStates) (k : ReducedState)
    (f : List ParetoValue) (h : lookupSolved m1 k = some f) :
    lookupSolved (m1 ++ m2) k = some f := by
  induction m1 with
  | nil => exact Option.noConfusion h
  | cons p rest ih =>
    obtain ⟨k', f'⟩ := p
    simp only [lookupSolved] at h
    simp only [List.cons_append, lookupSolved]
    by_cases hk : k' = k
    · rw [if_pos hk] at h ⊢
      exact h
    · rw [if_neg hk] at h ⊢
      exact ih h

theorem solveAllLookup (env : Env) (solved : SolvedStates) :
    ∀ (states : List ReducedState) (pairs : SolvedStates),
    solveAll env solved states = some pairs →
    ∀ k f, lookupSolved pairs k = some f →
    solve_precompute_state env solved k = some f := by
  intro states
  induction states with
  | nil =>
    intro pairs h k f hl
    cases h
    exact Option.noConfusion hl
  | cons s rest ih =>
    intro pairs h k f hl
    simp only [solveAll] at h
    cases hs : solve_precompute_state env solved s with
    | none =>
      rw [hs] at h
      exact Option.noConfusion h
    | some f0 =>
      rw [hs] at h
      cases hr : solveAll env solved rest with
      | none =>
        rw [hr] at h
        exact Option.noConfusion h
      | some ps =>
        rw [hr] at h
        cases h
        simp only [lookupSolved] at hl
        by_cases hk : s = k
        · rw [if_pos hk] at hl
          cases hl
          rw [← hk]
          exact hs
        · rw [if_neg hk] at hl
          exact ih ps hr k f hl

theorem solveAllKeyMem (env : Env) (solved : SolvedStates) :
    ∀ (states : List ReducedState) (pairs : SolvedStates),
    solveAll env solved states = some pairs →
    ∀ k, k ∈ states → ∃ f, lookupSolved pairs k = some f := by
  intro states
  induction states with
  | nil =>
    intro pairs _ k hk
    exact absurd hk (List.not_mem_nil k)
  | cons s rest ih =>
    intro pairs h k hk
    simp only [solveAll] at h
    cases hs : solve_precompute_state env solved s with
    | none =>
      rw [hs] at h
      exact Option.noConfusion h
    | some f0 =>
      rw [hs] at h
      cases hr : solveAll env solved rest with
      | none =>
        rw [hr] at h
        exact Option.noConfusion h
      | some ps =>
        rw [hr] at h
        cases h
        by_cases hks : s = k
        · exact ⟨f0, by simp only [lookupSolved]; rw [if_pos hks]⟩
        · rcases List.mem_cons.mp hk with hk0 | hk'
          · exact absurd hk0.symm hks
          · obtain ⟨f, hf⟩ := ih ps hr k hk'
            refine ⟨f, ?_⟩
            simp only [lookupSolved]
            rw [if_neg hks]
            exact hf

theorem layerWF (env : Env) (st : PState) (budget : Nat) (st1 : PState)
    (h : precomputeLayer env st budget = some st1)
    (hwf : SolvedWF env.settings st.solved) : SolvedWF env.settings st1.solved := by
  simp only [precomputeLayer] at h
  cases hall : solveAll env st.solved
      ((st.templates.map (fun t => t.instantiate budget)).dedup) with
  | none =>
    rw [hall] at h
    exact Option.noConfusion h
  | some pairs =>
    rw [hall] at h
    cases h
    intro rs f hf
    rcases lookupAppendCases pairs st.solved rs f hf with h1 | h2
    · exact solveWF env st.solved rs f (solveAllLookup env st.solved _ pairs hall rs f h1)
    · exact hwf rs f h2

theorem iterLayersWFAux (env : Env) :
    ∀ (k : Nat) (st : PState) (budget : Nat) (st' : PState),
    SolvedWF env.settings st.solved →
    iterLayers env k st budget = some st' →
    SolvedWF env.settings st'.solved := by
  intro k
  induction k with
  | zero =>
    intro st budget st' hwf h
    cases h
    exact hwf
  | succ n ih =>
    intro st budget st' hwf h
    simp only [iterLayers] at h
    cases hl : precomputeLayer env st budget with
    | none =>
      rw [hl] at h
      exact Option.noConfusion h
    | some st1 =>
      rw [hl] at h
      exact ih st1 (min (budget + 1) 255) st' (layerWF env st budget st1 hl hwf) h

/-! ## Claim theorems: precompute invariants -/

/-- C3: after any number of precompute layers from a well-formed (e.g.
empty) memo map, every frontier stored in `SolvedStates` has strictly
increasing progress, strictly decreasing quality, and every point within
`max_progress`/`max_quality`. -/
theorem solvedStatesWF (env : Env) (k : Nat) (st : PState) (budget : Nat)
    (st' : PState) (hwf : SolvedWF env.settings st.solved)
    (h : iterLayers env k st budget = some st') :
    SolvedWF env.settings st'.solved :=
  iterLayersWFAux env k st budget st' hwf h

/-- Witness for C3: one layer of the empty-catalog environment produces
the memo map `[(reduced seed, [(0, 0)])]`, which is well-formed. -/
theorem solvedStatesWFWitness :
    iterLayers envE 1 stE 1 = some stE1 ∧ SolvedWF envE.settings stE1.solved := by
  have h1 : iterLayers envE 1 stE 1 = some stE1 := by decide
  exact ⟨h1, solvedStatesWF envE 1 stE 1 stE1 (fun rs f hf => Option.noConfusion hf) h1⟩

/-! ## Helper lemmas: missing children in `solve_precompute_state` -/

theorem childFrontNoneIff (solved : SolvedStates) (mp : Nat) (child : ReducedState) :
    childFront solved mp child = Option.none ↔
    (lookupSolved solved child = Option.none ∧
      child.effects.allow_quality_actions = true) := by
  unfold childFront
  cases hl : lookupSolved solved child with
  | some f => simp
  | none =>
    by_cases ha : child.effects.allow_quality_actions = false
    · rw [if_pos ha]
      simp [ha]
    · rw [if_neg ha]
      simp only [Bool.not_eq_false] at ha
      simp [ha]

theorem childFrontSubstitute (solved : SolvedStates) (mp : Nat) (child : ReducedState)
    (hl : lookupSolved solved child = Option.none)
    (ha : child.effects.allow_quality_actions = false) :
    childFront solved mp child = some [⟨mp, 0⟩] := by
  unfold childFront
  rw [hl]
  show (if child.effects.allow_quality_actions = false
      then some [(⟨mp, 0⟩ : ParetoValue)] else Option.none) = some [⟨mp, 0⟩]
  rw [if_pos ha]

theorem solveStepNoneIff (env : Env) (solved : SolvedStates) (state : ReducedState)
    (acc : List ParetoValue) (a : Nat) :
    solveStep env solved state acc a = Option.none ↔
    fatalChild env solved state a := by
  simp only [solveStep]
  unfold fatalChild
  by_cases hsteps : state.steps_budget < env.steps a
  · rw [if_pos hsteps]
    constructor
    · intro h
      exact Option.noConfusion h
    · intro ⟨hle, _⟩
      omega
  · rw [if_neg hsteps]
    cases happ : env.apply state.to_state a with
    | none =>
      constructor
      · intro h
        exact Option.noConfusion h
      · intro ⟨hle, ns, hns, _⟩
        exact Option.noConfusion hns
    | some ns =>
      dsimp only
      by_cases hcond : 0 < state.steps_budget - env.steps a ∧ 0 < ns.durability
      · rw [if_pos hcond]
        cases hcf : childFront solved env.settings.max_progress
            (ReducedState.from_state ns (state.steps_budget - env.steps a)) with
        | none =>
          have hfat := (childFrontNoneIff solved env.settings.max_progress _).mp hcf
          constructor
          · intro _
            exact ⟨by omega, ns, rfl, hcond.1, hcond.2, hfat.1, hfat.2⟩
          · intro _
            rfl
        | some f =>
          constructor
          · intro h
            exact Option.noConfusion h
          · intro ⟨hle, ns', hns', hb', hd', hlk, hal⟩
            cases hns'
            rw [(childFrontNoneIff solved env.settings.max_progress _).mpr ⟨hlk, hal⟩] at hcf
            exact Option.noConfusion hcf
      · rw [if_neg hcond]
        constructor
        · intro h
          by_cases hp : ns.progress ≠ 0
          · rw [if_pos hp] at h
            exact Option.noConfusion h
          · rw [if_neg hp] at h
            exact Option.noConfusion h
        · intro ⟨hle, ns', hns', hb', hd', _, _⟩
          cases hns'
          exact absurd ⟨hb', hd'⟩ hcond

theorem solveFoldNoneIff (env : Env) (solved : SolvedStates) (state : ReducedState) :
    ∀ (l : List Nat) (acc : List ParetoValue),
    (solveFold env solved state l acc = Option.none ↔
      ∃ a ∈ l, fatalChild env solved state a) := by
  intro l
  induction l with
  | nil =>
    intro acc
    simp [solveFold]
  | cons a rest ih =>
    intro acc
    simp only [solveFold]
    cases hstep : solveStep env solved state acc a with
    | none =>
      have hfatal := (solveStepNoneIff env solved state acc a).mp hstep
      constructor
      · intro _
        exact ⟨a, List.mem_cons_self a rest, hfatal⟩
      · intro _
        rfl
    | some acc' =>
      have hnfatal : ¬ fatalChild env solved state a := by
        intro hf
        rw [(solveStepNoneIff env solved state acc a).mpr hf] at hstep
        exact Option.noConfusion hstep
      constructor
      · intro h
        obtain ⟨b, hb, hfb⟩ := (ih acc').mp h
        exact ⟨b, List.mem_cons_of_mem a hb, hfb⟩
      · intro ⟨b, hb, hfb⟩
        rcases List.mem_cons.mp hb with hb0 | hb'
        · exact absurd (hb0 ▸ hfb) hnfatal
        · exact (ih acc').mpr ⟨b, hb', hfb⟩

/-- C5: in `solve_precompute_state`, a child with positive remaining
budget and durability whose frontier is absent from `SolvedStates` gets
the synthetic frontier `[(max_progress, 0)]` when its effects disallow
quality actions; when such an absent child allows quality actions the
solve is fatal (`unreachable!`), and with no such child it always produces
a frontier. -/
theorem solveMissingChild (env : Env) (solved : SolvedStates) (state : ReducedState) :
    (∀ child : ReducedState, lookupSolved solved child = Option.none →
      child.effects.allow_quality_actions = false →
      childFront solved env.settings.max_progress child
        = some [⟨env.settings.max_progress, 0⟩])
    ∧ ((∃ a ∈ env.actions, fatalChild env solved state a) →
      solve_precompute_state env solved state = Option.none)
    ∧ ((∀ a ∈ env.actions, ¬ fatalChild env solved state a) →
      ∃ f, solve_precompute_state env solved state = some f) := by
  refine ⟨?_, ?_, ?_⟩
  · intro child hl ha
    exact childFrontSubstitute solved env.settings.max_progress child hl ha
  · intro hex
    exact (solveFoldNoneIff env solved state env.actions [⟨0, 0⟩]).mpr hex
  · intro hall
    cases hs : solve_precompute_state env solved state with
    | none =>
      obtain ⟨a, ha, hf⟩ :=
        (solveFoldNoneIff env solved state env.actions [⟨0, 0⟩]).mp hs
      exact absurd hf (hall a ha)
    | some f =>
      exact ⟨f, rfl⟩

/-- Witness for C5: a one-action catalog whose child state is absent from
the empty memo map and allows quality actions makes the solve fatal. -/
theorem solveMissingChildWitness :
    (∃ a ∈ envD.actions, fatalChild envD [] stateD a)
    ∧ solve_precompute_state envD [] stateD = Option.none := by
  have hfat : fatalChild envD [] stateD 0 := by
    unfold fatalChild
    exact ⟨by decide, ⟨5, 0, 3, 0, 0, effects0⟩, rfl, by decide, by decide, rfl, rfl⟩
  have hmem : (0 : Nat) ∈ envD.actions := by decide
  exact ⟨⟨0, hmem, hfat⟩, (solveMissingChild envD [] stateD).2.1 ⟨0, hmem, hfat⟩⟩

/-! ## Helper lemmas: the last frontier point has the maximum progress -/

theorem chainLastMax : ∀ l : List ParetoValue, List.Chain' pvLT l →
    ∀ v ∈ l, v.first ≤ (l.getLastD ⟨0, 0⟩).first := by
  intro l
  induction l with
  | nil => simp
  | cons x xs ih =>
    intro hch v hv
    cases xs with
    | nil =>
      have hxv : v = x := List.mem_singleton.mp hv
      rw [hxv]
      exact Nat.le_refl _
    | cons y ys =>
      have hlast : ((x :: y :: ys).getLastD (⟨0, 0⟩ : ParetoValue))
          = ((y :: ys).getLastD (⟨0, 0⟩ : ParetoValue)) := by
        rw [List.getLastD_eq_getLast?, List.getLastD_eq_getLast?, List.getLast?_cons_cons]
      rw [hlast]
      have hch' : List.Chain' pvLT (y :: ys) := hch.tail
      rcases List.mem_cons.mp hv with hvx | hv'
      · have hxy : pvLT x y := (List.chain'_cons.mp hch).1
        have hy := ih hch' y (List.mem_cons_self y ys)
        unfold pvLT at hxy
        rw [hvx]
        omega
      · exact ih hch' v hv'

/-- C4: at the end of a precompute layer with budget `b`, a template is
retained iff it was alive and the last point of its frontier at budget `b`
(the point of maximum progress — established in the second conjunct) has
progress below `max_progress` or quality below `max_needed_quality`, where
`max_needed_quality` is `0` when the instantiated state disallows quality
actions and `max_quality - iq_quality_lut[inner_quiet]` (saturating)
otherwise. -/
theorem templateRetention (env : Env) (st : PState) (budget : Nat) (st' : PState)
    (t : Template) (h : precomputeLayer env st budget = some st') :
    (t ∈ st'.templates ↔
      t ∈ st.templates ∧
      ((((lookupSolved st'.solved (t.instantiate budget)).getD []).getLastD ⟨0, 0⟩).first
          < env.settings.max_progress ∨
       (((lookupSolved st'.solved (t.instantiate budget)).getD []).getLastD ⟨0, 0⟩).second
          < (if (t.instantiate budget).effects.allow_quality_actions then
              env.settings.max_quality
                - env.iq_quality_lut (t.instantiate budget).effects.inner_quiet
            else 0)))
    ∧ (t ∈ st.templates →
      ∃ front, lookupSolved st'.solved (t.instantiate budget) = some front ∧
        WFFront env.settings.max_progress env.settings.max_quality front ∧
        ∀ v ∈ front, v.first ≤ (front.getLastD ⟨0, 0⟩).first) := by
  simp only [precomputeLayer] at h
  cases hall : solveAll env st.solved
      ((st.templates.map (fun t => t.instantiate budget)).dedup) with
  | none =>
    rw [hall] at h
    exact Option.noConfusion h
  | some pairs =>
    rw [hall] at h
    cases h
    constructor
    · constructor
      · intro hmem
        have hf := List.mem_filter.mp hmem
        refine ⟨hf.1, ?_⟩
        have hk := of_decide_eq_true hf.2
        exact hk
      · intro ⟨hmem, hcond⟩
        exact List.mem_filter.mpr ⟨hmem, decide_eq_true hcond⟩
    · intro hmem
      have hkey : t.instantiate budget
          ∈ (st.templates.map (fun t => t.instantiate budget)).dedup :=
        List.mem_dedup.mpr (List.mem_map_of_mem _ hmem)
      obtain ⟨f, hf⟩ := solveAllKeyMem env st.solved _ pairs hall (t.instantiate budget) hkey
      have hsolve := solveAllLookup env st.solved _ pairs hall (t.instantiate budget) f hf
      have hwf := solveWF env st.solved (t.instantiate budget) f hsolve
      exact ⟨f, lookupAppendLeft pairs st.solved _ f hf, hwf, chainLastMax f hwf.1⟩

/-- Witness for C4: the seed template of the empty-catalog environment is
retained after the first layer (its frontier `[(0, 0)]` is short of the
progress target 100). -/
theorem templateRetentionWitness :
    seedTemplate envE ∈ stE1.templates ↔
      seedTemplate envE ∈ stE.templates ∧
      ((((lookupSolved stE1.solved ((seedTemplate envE).instantiate 1)).getD
            []).getLastD ⟨0, 0⟩).first < envE.settings.max_progress ∨
       (((lookupSolved stE1.solved ((seedTemplate envE).instantiate 1)).getD
            []).getLastD ⟨0, 0⟩).second
          < (if ((seedTemplate envE).instantiate 1).effects.allow_quality_actions then
              envE.settings.max_quality
                - envE.iq_quality_lut ((seedTemplate envE).instantiate 1).effects.inner_quiet
            else 0)) :=
  (templateRetention envE stE 1 stE1 (seedTemplate envE) (by decide)).1

/-! ## Helper lemmas: the precompute layer loop -/

theorem loopGuard (env : Env) :
    ∀ (fuel : Nat) (st : PState) (budget : Nat) (st' : PState),
    precomputeLoop env fuel st budget = some st' →
    st'.templates = [] ∨ env.cancel = true := by
  intro fuel
  induction fuel with
  | zero =>
    intro st budget st' h
    unfold precomputeLoop at h
    by_cases hg : (st.templates.isEmpty || env.cancel) = true
    · rw [if_pos hg] at h
      cases h
      rcases Bool.or_eq_true_iff.mp hg with h1 | h2
      · exact Or.inl (List.isEmpty_iff.mp h1)
      · exact Or.inr h2
    · rw [if_neg hg] at h
      exact Option.noConfusion h
  | succ n ih =>
    intro st budget st' h
    unfold precomputeLoop at h
    by_cases hg : (st.templates.isEmpty || env.cancel) = true
    · rw [if_pos hg] at h
      cases h
      rcases Bool.or_eq_true_iff.mp hg with h1 | h2
      · exact Or.inl (List.isEmpty_iff.mp h1)
      · exact Or.inr h2
    · rw [if_neg hg] at h
      cases hl : precomputeLayer env st budget with
      | none =>
        rw [hl] at h
        exact Option.noConfusion h
      | some st1 =>
        rw [hl] at h
        exact ih st1 (min (budget + 1) 255) st' h

theorem loopStopsNow (env : Env) (fuel : Nat) (st : PState) (budget : Nat)
    (hg : st.templates = [] ∨ env.cancel = true) :
    precomputeLoop env fuel st budget = some st := by
  have hc : (st.templates.isEmpty || env.cancel) = true := by
    rcases hg with h | h
    · rw [h]
      rfl
    · rw [h]
      exact Bool.or_true _
  unfold precomputeLoop
  rw [if_pos hc]

/-- C7 (amended): the precompute layer loop returns exactly when the
alive-template list is empty or the cancel flag is set; budget saturation
at 255 by itself never stops it (see the counterexample
`precomputeDiverges` for an environment on which the loop runs forever). -/
theorem precomputeLoopStops (env : Env) (fuel : Nat) (st : PState) (budget : Nat) :
    (∀ st', precomputeLoop env fuel st budget = some st' →
      st'.templates = [] ∨ env.cancel = true)
    ∧ ((st.templates = [] ∨ env.cancel = true) →
      precomputeLoop env fuel st budget = some st) :=
  ⟨fun st' h => loopGuard env fuel st budget st' h,
   fun hg => loopStopsNow env fuel st budget hg⟩

/-- Witness for C7 (amended): a loop that returned did so with its
template list exhausted. -/
theorem precomputeLoopStopsWitness :
    precomputeLoop envF 2 stF1 7 = some stF1 ∧ (stF1.templates = [] ∨ envF.cancel = true) := by
  have h2 := (precomputeLoopStops envF 2 stF1 7).2 (Or.inl rfl)
  exact ⟨h2, (precomputeLoopStops envF 2 stF1 7).1 stF1 h2⟩

theorem layerE (solved : SolvedStates) (b : Nat) :
    precomputeLayer envE ⟨[seedTemplate envE], solved⟩ b
      = some ⟨[seedTemplate envE],
          ((seedTemplate envE).instantiate b, [⟨0, 0⟩]) :: solved⟩ := by
  have hlk : lookupSolved (((seedTemplate envE).instantiate b, [(⟨0, 0⟩ : ParetoValue)]) :: solved)
      ((seedTemplate envE).instantiate b) = some [⟨0, 0⟩] := by
    simp [lookupSolved]
  have hkeep : keepTemplate envE
      (((seedTemplate envE).instantiate b, [(⟨0, 0⟩ : ParetoValue)]) :: solved)
      ((seedTemplate envE).instantiate b) = true := by
    simp only [keepTemplate]
    rw [hlk]
    rfl
  have hstates : (([seedTemplate envE].map (fun t => t.instantiate b))).dedup
      = [(seedTemplate envE).instantiate b] := by
    simp
  have hsa : solveAll envE solved [(seedTemplate envE).instantiate b]
      = some [((seedTemplate envE).instantiate b, [⟨0, 0⟩])] := rfl
  simp only [precomputeLayer, hstates, hsa, extendSolved, List.singleton_append,
    List.filter_cons, List.filter_nil, hkeep, if_true]

theorem loopE : ∀ (fuel : Nat) (solved : SolvedStates) (b : Nat),
    precomputeLoop envE fuel ⟨[seedTemplate envE], solved⟩ b = Option.none := by
  intro fuel
  induction fuel with
  | zero =>
    intro solved b
    unfold precomputeLoop
    have hng : (((⟨[seedTemplate envE], solved⟩ : PState).templates.isEmpty
        || envE.cancel)) = false := rfl
    rw [hng]
    rfl
  | succ n ih =>
    intro solved b
    unfold precomputeLoop
    have hng : (((⟨[seedTemplate envE], solved⟩ : PState).templates.isEmpty
        || envE.cancel)) = false := rfl
    rw [hng]
    rw [if_neg (by decide)]
    rw [layerE solved b]
    exact ih _ _

/-- C7 counterexample: for the empty-catalog environment `envE` with the
cancel flag never set, the alive-template list never empties (the seed's
frontier stays `[(0, 0)]`, short of the targets), so `precompute` runs
forever even after `next_budget` saturates at 255 — no fuel makes the
layer loop return. -/
theorem precomputeDiverges :
    ¬ precomputeTerminates envE ⟨generate_precompute_templates envE 2, []⟩ := by
  intro hterm
  obtain ⟨fuel, h⟩ := hterm
  have hgen : generate_precompute_templates envE 2 = [seedTemplate envE] := by decide
  rw [hgen] at h
  rw [loopE fuel [] 1] at h
  exact Bool.noConfusion h

/-- C8: once `precompute` has returned, any further call with any fuel is
a no-op: it returns the same state, leaving the memo map, the template
list, and hence every subsequent bound-query answer unchanged. -/
theorem precomputeIdempotent (env : Env) (fuel : Nat) (st st' : PState)
    (h : precompute env fuel st = some st') (fuel2 : Nat) :
    precompute env fuel2 st' = some st'
    ∧ (precompute env fuel2 st').map PState.templates = some st'.templates
    ∧ (precompute env fuel2 st').map PState.solved = some st'.solved := by
  have hg := loopGuard env fuel st 1 st' h
  have hmain : precompute env fuel2 st' = some st' :=
    loopStopsNow env fuel2 st' 1 hg
  refine ⟨hmain, ?_, ?_⟩
  · rw [hmain]
    rfl
  · rw [hmain]
    rfl

/-- Witness for C8: `envF` exhausts its only template after one layer;
re-running `precompute` on the result is a no-op. -/
theorem precomputeIdempotentWitness :
    precompute envF 9 stF1 = some stF1 :=
  (precomputeIdempotent envF 2 stF stF1 (by decide) 9).1
